import Mathlib

/-!
Verification of the libfirm backend register-allocation core: the Belady
spill chooser (bespillbelady.c), the chordal allocator (bechordal.c) and
the list scheduler (belistsched.c).  The C data structures are embedded
shallowly: a workset is a list of locations, bitsets are lists of
booleans, IR-node attributes (register class membership, phi-ness,
block of a node, operands, users) are function fields of an environment
record, mirroring the external oracles the passes consult.
-/

/-- A `loc_t`: an IR node (by index) together with its next-use time. -/
structure Loc where
  irn : Nat
  time : Nat
deriving DecidableEq

/-- Environment of the Belady pass (`belady_env_t` plus the external
oracles it consults).  `relevant` is `arch_irn_consider_in_reg_alloc`
(true iff the value belongs to the current class and is not ignored),
`nextUse` is `be_get_next_use from from_step def skip_from_uses`. -/
structure BeladyEnv where
  n_regs : Nat
  relevant : Nat → Bool
  dontSpill : Nat → Bool
  nextUse : Nat → Nat → Nat → Bool → Nat
  isPhi : Nat → Bool
  blockOf : Nat → Nat
  phiArg : Nat → Nat → Nat
  isUnknown : Nat → Bool
  isProj : Nat → Bool
  modeT : Nat → Bool
  ins : Nat → List Nat

/-- The nodes held in a workset, in order. -/
def wsIrns (ws : List Loc) : List Nat :=
  ws.map Loc.irn

/-- `workset_contains`: linear scan for a node. -/
def workset_contains (ws : List Loc) (val : Nat) : Bool :=
  ws.any (fun l => l.irn == val)

/-- `workset_insert`: drop values that are not of the current register
class or are ignored, drop values already contained, else append.
(The C code asserts `len < n_regs` before appending.) -/
def workset_insert (env : BeladyEnv) (ws : List Loc) (val : Nat) : List Loc :=
  if !env.relevant val then ws
  else if workset_contains ws val then ws
  else ws ++ [⟨val, 0⟩]

/-- `workset_remove`: overwrite the first occurrence with the last
entry and shrink the length by one, exactly as the C loop does. -/
def workset_remove (ws : List Loc) (val : Nat) : List Loc :=
  match ws.findIdx? (fun l => l.irn == val) with
  | none => ws
  | some i => (ws.set i (ws.getLastD ⟨0, 0⟩)).dropLast

/-- `pset_insert_ptr`: set-semantics insertion. -/
def pset_insert (s : List Nat) (x : Nat) : List Nat :=
  if x ∈ s then s else x :: s

/-- `get_distance`: next-use distance, forced to 0 for values carrying
the dont-spill flag (they pin themselves into the workset). -/
def get_distance (env : BeladyEnv) (from_ step val : Nat) (skip : Bool) : Nat :=
  if env.dontSpill val then 0 else env.nextUse from_ step val skip

/-- Modelled from the spec: `loc_compare` (not under src/) orders
locations by increasing next-use distance. -/
def locLe (a b : Loc) : Bool :=
  a.time ≤ b.time

/-- `workset_sort`: sort the workset by increasing next-use distance.
(The tie-break order of `qsort` is unspecified; any sort by the
modelled comparator is a faithful model.) -/
def workset_sort (ws : List Loc) : List Loc :=
  ws.insertionSort (fun a b => a.time ≤ b.time)

/-- Building a `new_vals` workset by repeated `workset_insert` into an
empty workset, as the belady block walk does. -/
def mk_new_vals (env : BeladyEnv) (vals : List Nat) : List Loc :=
  vals.foldl (workset_insert env) []

/-- Phase 1 of `displace`: the values of `new_vals` that are not yet in
the workset, in order.  Its length is the demand. -/
def displace_to_insert (ws : List Loc) (new_vals : List Loc) : List Nat :=
  (new_vals.filter (fun l => !workset_contains ws l.irn)).map Loc.irn

/-- Phase 2 of `displace`, first step: refresh every member of the
workset with its current next-use distance (skipping uses at the
current instruction exactly when the displacement is a definition). -/
def retime (env : BeladyEnv) (instr instrNr : Nat) (is_usage : Bool) (ws : List Loc) : List Loc :=
  ws.map (fun l => ⟨l.irn, get_distance env instr instrNr l.irn (!is_usage)⟩)

/-- Processing of the evicted tail of the sorted workset: a value never
used in the current block is removed from the block start workset
retroactively and, if it is a Phi, marked for spilling. -/
def evict_fold (env : BeladyEnv) (used : List Nat) (wsStart : List Loc)
    (evicted : List Loc) : List Loc × List Nat :=
  evicted.foldl
    (fun st l =>
      if l.irn ∈ used then st
      else (workset_remove st.1 l.irn,
            if env.isPhi l.irn then st.2 ++ [l.irn] else st.2))
    (wsStart, [])

/-- Result of one `displace` call: the new workset, the used set, the
(possibly shrunk) start workset of the current block, the reload
requests issued at the current instruction, and the phi spill marks. -/
structure DisplaceOut where
  ws : List Loc
  used : List Nat
  wsStart : List Loc
  reloads : List Nat
  spills : List Nat
deriving DecidableEq

/-- `displace`: make room for the values of `new_vals` in the workset,
evicting the members with the farthest next use first. -/
def displace (env : BeladyEnv) (instr instrNr : Nat) (is_usage : Bool)
    (wsStart : List Loc) (used : List Nat) (ws : List Loc)
    (new_vals : List Loc) : DisplaceOut :=
  let used' := if is_usage then new_vals.foldl (fun u l => pset_insert u l.irn) used else used
  let to_insert := displace_to_insert ws new_vals
  let demand := to_insert.length
  let reloads := if is_usage then to_insert else []
  let max_allowed : Int := (env.n_regs : Int) - (demand : Int)
  if (ws.length : Int) > max_allowed then
    let sorted := workset_sort (retime env instr instrNr is_usage ws)
    let kept := sorted.take max_allowed.toNat
    let evicted := sorted.drop max_allowed.toNat
    let p := evict_fold env used' wsStart evicted
    { ws := to_insert.foldl (workset_insert env) kept
      used := used'
      wsStart := p.1
      reloads := reloads
      spills := p.2 }
  else
    { ws := to_insert.foldl (workset_insert env) ws
      used := used'
      wsStart := wsStart
      reloads := reloads
      spills := [] }

/-- The boolean condition of the C assertion
`assert(is_usage || "Defined value already in workset?!?")`: the string
literal decays to its (never null) address, so the second disjunct of
the `||` is the boolean constant true. -/
def displace_def_assert_cond (is_usage : Bool) : Bool :=
  is_usage || true

/-- State threaded through the belady walk over one block. -/
structure BeladyState where
  ws : List Loc
  used : List Nat
  wsStart : List Loc
  reloads : List (Nat × Nat)
  spills : List Nat
  instrNr : Nat
deriving DecidableEq

/-- The values defined by an instruction: for a tuple-mode instruction
the Proj nodes immediately following it in the schedule, otherwise the
instruction itself. -/
def belady_defs (env : BeladyEnv) (n : Nat) (rest : List Nat) : List Nat :=
  if env.modeT n then rest.takeWhile env.isProj else [n]

/-- One iteration of the `sched_foreach` loop of `belady`: Projs and
Phis are skipped; otherwise the used values are displaced as a usage
and the defined values as a definition, and the instruction counter is
advanced. -/
def belady_step (env : BeladyEnv) (st : BeladyState) (n : Nat) (rest : List Nat) : BeladyState :=
  if env.isProj n || env.isPhi n then st
  else
    let uses := mk_new_vals env (env.ins n)
    let o1 := displace env n st.instrNr true st.wsStart st.used st.ws uses
    let defs := mk_new_vals env (belady_defs env n rest)
    let o2 := displace env n st.instrNr false o1.wsStart o1.used o1.ws defs
    { ws := o2.ws
      used := o2.used
      wsStart := o2.wsStart
      reloads := st.reloads ++ (o1.reloads ++ o2.reloads).map (fun v => (n, v))
      spills := st.spills ++ o1.spills ++ o2.spills
      instrNr := st.instrNr + 1 }

/-- The belady walk over the scheduled instructions of one block. -/
def belady_run (env : BeladyEnv) : BeladyState → List Nat → BeladyState
  | st, [] => st
  | st, n :: rest => belady_run env (belady_step env st n rest) rest

/-- The worksets observed at the start of processing each scheduled
instruction (where `belady` asserts `len <= n_regs`), together with the
final workset. -/
def belady_states (env : BeladyEnv) : BeladyState → List Nat → List (List Loc)
  | st, [] => [st.ws]
  | st, n :: rest => st.ws :: belady_states env (belady_step env st n rest) rest

/-- The starters list of `compute_block_start_info`: the relevant Phis
of the block (the Phi run at the head of the schedule) followed by the
relevant live-in values, each paired with its next-use distance from
the first scheduled instruction.  `liveEntries` carries the
`live_is_in` flag of each liveness-list entry. -/
def starters (env : BeladyEnv) (first : Nat) (sched : List Nat)
    (liveEntries : List (Nat × Bool)) : List Loc :=
  ((sched.takeWhile env.isPhi).filter env.relevant).map
      (fun irn => ⟨irn, get_distance env first 0 irn false⟩)
    ++ (liveEntries.filter (fun p => p.2 && env.relevant p.1)).map
      (fun p => ⟨p.1, get_distance env first 0 p.1 false⟩)

/-- Result of `compute_block_start_info`: the start workset and the
phis marked for spilling. -/
structure StartInfoOut where
  wsStart : List Loc
  spills : List Nat
deriving DecidableEq

/-- `compute_block_start_info`: a block with exactly one control-flow
predecessor that is not the start block clones the end workset of its
predecessor (`predEnd`, computed recursively by the caller); any other
block keeps the `min (count, n_regs)` starters with the smallest
next-use distance and marks the dropped phis of this block for
spilling. -/
def compute_block_start_info (env : BeladyEnv) (blk startBlk nPreds : Nat)
    (predEnd : List Loc) (sched : List Nat)
    (liveEntries : List (Nat × Bool)) : StartInfoOut :=
  let sts := workset_sort (starters env (sched.headD 0) sched liveEntries)
  if nPreds == 1 && blk != startBlk then
    { wsStart := predEnd, spills := [] }
  else
    let ws_count := min sts.length env.n_regs
    { wsStart := sts.take ws_count
      spills := ((sts.drop ws_count).map Loc.irn).filter
          (fun irn => env.isPhi irn && env.blockOf irn == blk) }

/-- The substitution performed by `fix_block_borders`: a Phi of the
current block is replaced by its argument along predecessor edge `i`. -/
def fix_subst (env : BeladyEnv) (blk i irnb : Nat) : Nat :=
  if env.isPhi irnb && env.blockOf irnb == blk then env.phiArg irnb i else irnb

/-- The reloads requested by `fix_block_borders` on one incoming edge:
for each value of the start workset, after phi substitution, skip
Unknowns and request a reload iff the value is not in the end workset
of the predecessor. -/
def fix_edge_reloads (env : BeladyEnv) (blk i : Nat) (wsb wsp : List Loc) : List Nat :=
  wsb.foldl
    (fun acc l =>
      let irnb := fix_subst env blk i l.irn
      if env.isUnknown irnb then acc
      else if workset_contains wsp irnb then acc
      else acc ++ [irnb])
    []

/-- `fix_block_borders` over all predecessor edges of a block: the list
of (edge index, value) reload requests. -/
def fix_block_borders (env : BeladyEnv) (blk : Nat) (preds : List Nat)
    (wsb : List Loc) (wsEnd : Nat → List Loc) : List (Nat × Nat) :=
  (List.range preds.length).foldl
    (fun acc i =>
      acc ++ (fix_edge_reloads env blk i wsb (wsEnd (preds.getD i 0))).map (fun v => (i, v)))
    []

/-- Set a bit of a bitset (modelled as a list of booleans). -/
def bsSet (bs : List Bool) (i : Nat) : List Bool :=
  bs.set i true

/-- Clear a bit of a bitset. -/
def bsClear (bs : List Bool) (i : Nat) : List Bool :=
  bs.set i false

/-- `get_next_free_reg`: copy the color mask, flip all bits, intersect
with the allocatable registers and return the lowest set bit.  The
zipWith expresses flip-then-and pointwise. -/
def get_next_free_reg (allocatable colors : List Bool) : Nat :=
  List.findIdx (fun b => b) (List.zipWith (fun c a => !c && a) colors allocatable)

/-- Environment of the coloring walk `assign` for one block. -/
structure AssignEnv where
  allocatable : List Bool
  liveIn : Nat → Bool

/-- One entry of the border list of a block. -/
structure Border where
  is_def : Bool
  irn : Nat
deriving DecidableEq

/-- State of the coloring walk: the color mask, the live values, and
the register assignment (an association list, newest first;
`arch_set_irn_register` prepends, `arch_get_irn_register` looks up). -/
structure AState where
  colors : List Bool
  live : List Nat
  regs : List (Nat × Nat)
deriving DecidableEq

/-- `arch_get_irn_register` on the threaded assignment. -/
def regLookup (regs : List (Nat × Nat)) (irn : Nat) : Option Nat :=
  match regs.find? (fun p => p.1 == irn) with
  | some p => some p.2
  | none => none

/-- One border event of the coloring walk `assign`: a use clears the
color of the value; a def of a live-in value is skipped; a local def
with a pre-assigned register occupies it; a local def without one gets
the next free allocatable register. -/
def assign_border (env : AssignEnv) (st : AState) (b : Border) : AState :=
  if b.is_def = false then
    match regLookup st.regs b.irn with
    | some r => ⟨bsClear st.colors r, st.live.erase b.irn, st.regs⟩
    | none => st
  else if env.liveIn b.irn then st
  else
    match regLookup st.regs b.irn with
    | some r => ⟨bsSet st.colors r, b.irn :: st.live, st.regs⟩
    | none =>
      let col := get_next_free_reg env.allocatable st.colors
      ⟨bsSet st.colors col, b.irn :: st.live, (b.irn, col) :: st.regs⟩

/-- The whole border walk of `assign` over a block. -/
def assign_run (env : AssignEnv) (st : AState) (borders : List Border) : AState :=
  borders.foldl (assign_border env) st

/-- An operand as seen by `get_decisive_partner_regs`: its admissible
register bitset and, if paired, the bitset of its partner operand. -/
structure BOperand where
  regs : List Bool
  partner : Option (List Bool)
deriving DecidableEq

/-- Modelled from the spec: libfirm bitset.h `bitset_contains lhs rhs`
(not under src/) tests that every bit set in `lhs` is also set in
`rhs`.  Bits beyond the length of a list are unset. -/
def bs_contains (lhs rhs : List Bool) : Bool :=
  (List.range lhs.length).all (fun i => !(lhs.getD i false) || rhs.getD i false)

/-- `get_decisive_partner_regs`: no partner means the own regs; with a
partner, the subset of the two bitsets wins; with incomparable bitsets
no constraint set is produced. -/
def get_decisive_partner_regs (o1 : BOperand) : Option (List Bool) :=
  match o1.partner with
  | none => some o1.regs
  | some p =>
    if bs_contains o1.regs p then some o1.regs
    else if bs_contains p o1.regs then some p
    else none

/-- The indices of the set bits of a bitset, in order. -/
def bits_of (bs : List Bool) : List Nat :=
  (List.range bs.length).filter (fun i => bs.getD i false)

/-- The bipartite edges `handle_constraints` adds for one left node:
one edge per set bit of the decisive constraint bitset, none when no
bitset was produced. -/
def constraint_edges (o : BOperand) : List Nat :=
  match get_decisive_partner_regs o with
  | some bs => bits_of bs
  | none => []

/-- The graph/oracle data the list scheduler consults for one block:
block membership, data-plus-dependency inputs (`get_irn_in_or_dep`),
users (the sources of normal and dependency out-edges), and the node
predicates used by `list_sched_block` and `make_ready`. -/
structure SchedGraph where
  blockOf : Nat → Nat
  ins : Nat → List Nat
  users : Nat → List Nat
  isPhi : Nat → Bool
  isStart : Nat → Bool
  isEnd : Nat → Bool
  isKeepLike : Nat → Bool
  isBlockNode : Nat → Bool
  isAnchor : Nat → Bool
  appears : Nat → Bool

/-- State of the block scheduler: the schedule built so far, the
already-scheduled marks and the candidate (ready) set. -/
structure SState where
  sched : List Nat
  already : List Nat
  cands : List Nat
deriving DecidableEq

/-- The guard of `make_ready`: blocks and nodes without users are never
ready, nodes of a different block are not ready, and every non-block
input living in the scheduled block must already be scheduled. -/
def ready_ok (g : SchedGraph) (blk : Nat) (st : SState) (irn : Nat) : Bool :=
  !g.isBlockNode irn && !(g.users irn).isEmpty && (g.blockOf irn == blk) &&
    (g.ins irn).all
      (fun op => g.isBlockNode op || !(g.blockOf op == blk) || op ∈ st.already)

mutual

/-- `make_ready`: if the node passes `ready_ok`, nodes that do not
appear in the schedule are scheduled immediately, the rest enter the
candidate set.  Fuel bounds the `add_to_sched`/`make_users_ready`
cascade; running out of fuel leaves the state unchanged. -/
def make_ready (g : SchedGraph) (blk : Nat) : Nat → SState → Nat → SState
  | 0, st, _ => st
  | fuel + 1, st, irn =>
    if ready_ok g blk st irn then
      if !g.appears irn then add_to_sched g blk fuel st irn
      else { st with cands := if irn ∈ st.cands then st.cands else st.cands ++ [irn] }
    else st

/-- `add_to_sched`: append an appearing node to the schedule and drop
it from the candidates, mark the node as already scheduled, then try to
make all of its non-Phi users ready. -/
def add_to_sched (g : SchedGraph) (blk : Nat) : Nat → SState → Nat → SState
  | 0, st, _ => st
  | fuel + 1, st, irn =>
    let st1 := if g.appears irn
      then { st with sched := st.sched ++ [irn], cands := st.cands.erase irn }
      else st
    make_users_ready g blk fuel { st1 with already := irn :: st1.already } irn

/-- `make_users_ready`: try to make every non-Phi user of a node ready. -/
def make_users_ready (g : SchedGraph) (blk : Nat) : Nat → SState → Nat → SState
  | 0, st, _ => st
  | fuel + 1, st, irn =>
    (g.users irn).foldl (fun s u => if g.isPhi u then s else make_ready g blk fuel s u) st

end

/-- Seeding of one block member in `list_sched_block`: End nodes,
user-less nodes and nodes held only by the anchor are skipped; Phis and
the backend Start node are scheduled immediately; other nodes are tried
for readiness only when none of their inputs lives in this block. -/
def seed_node (g : SchedGraph) (blk fuel : Nat) (st : SState) (irn : Nat) : SState :=
  if g.isEnd irn then st
  else if (g.users irn).isEmpty then st
  else if (g.users irn).length == 1 && g.isAnchor ((g.users irn).headD 0) then st
  else if g.isPhi irn then add_to_sched g blk fuel st irn
  else if g.isStart irn then add_to_sched g blk fuel st irn
  else if (g.ins irn).all (fun op => !(g.blockOf op == blk)) then
    make_ready g blk fuel st irn
  else st

/-- The selection loop of `list_sched_block`: while candidates remain,
pick a Keep/CopyKeep/Sync if present, otherwise ask the selector, then
schedule the pick and remove it from the candidates. -/
def sched_loop (g : SchedGraph) (blk : Nat) (sel : List Nat → Nat) :
    Nat → SState → SState
  | 0, st => st
  | fuel + 1, st =>
    if st.cands.isEmpty then st
    else
      let irn := match st.cands.find? g.isKeepLike with
        | some k => k
        | none => sel st.cands
      let st' := add_to_sched g blk fuel st irn
      sched_loop g blk sel fuel { st' with cands := st'.cands.erase irn }

/-- `list_sched_block`: seed the ready set from the members of the
block, then run the selection loop. -/
def list_sched_block (g : SchedGraph) (blk : Nat) (blockNodes : List Nat)
    (sel : List Nat → Nat) (fuel : Nat) : SState :=
  sched_loop g blk sel fuel (blockNodes.foldl (seed_node g blk fuel) ⟨[], [], []⟩)

/-- The DAG-respecting property claimed of the produced schedule: every
operand of a scheduled instruction that lives in the same block and
itself appears in the schedule occurs strictly earlier. -/
def sched_respects_dag (g : SchedGraph) (blk : Nat) (sched : List Nat) : Prop :=
  ∀ j : Nat, ∀ hj : j < sched.length, ∀ u ∈ g.ins (sched.get ⟨j, hj⟩),
    g.isBlockNode u = false → g.blockOf u = blk → g.appears u = true →
    u ∈ sched.take j

/-- All inputs of a node that are non-block nodes of the scheduled
block lie in `seen`. -/
def ops_ok (g : SchedGraph) (blk : Nat) (seen : List Nat) (irn : Nat) : Prop :=
  ∀ u ∈ g.ins irn, g.isBlockNode u = false → g.blockOf u = blk → u ∈ seen

/-- Like `ops_ok` but restricted to inputs that appear in the schedule. -/
def ops_in (g : SchedGraph) (blk : Nat) (seen : List Nat) (irn : Nat) : Prop :=
  ∀ u ∈ g.ins irn, g.isBlockNode u = false → g.blockOf u = blk →
    g.appears u = true → u ∈ seen

/-- Invariant of the block scheduler: appearing already-scheduled nodes
are in the schedule; candidates have all their in-block inputs already
scheduled; every scheduled non-Phi node has its appearing in-block
inputs strictly earlier in the schedule. -/
def sched_inv (g : SchedGraph) (blk : Nat) (st : SState) : Prop :=
  (∀ x ∈ st.already, g.appears x = true → x ∈ st.sched) ∧
  (∀ c ∈ st.cands, ops_ok g blk st.already c) ∧
  (∀ j, ∀ hj : j < st.sched.length, g.isPhi (st.sched.get ⟨j, hj⟩) = false →
    ops_in g blk (st.sched.take j) (st.sched.get ⟨j, hj⟩))

/-- A trivial Belady environment used to exercise theorems on concrete
inputs: two registers, everything relevant, no phis, no tuples,
instructions without operands, next use equal to the node index. -/
def envW : BeladyEnv :=
  { n_regs := 2
    relevant := fun _ => true
    dontSpill := fun _ => false
    nextUse := fun _ _ v _ => v
    isPhi := fun _ => false
    blockOf := fun _ => 5
    phiArg := fun _ _ => 0
    isUnknown := fun _ => false
    isProj := fun _ => false
    modeT := fun _ => false
    ins := fun _ => [] }

/-- A Belady environment in which node 10 is a Phi of block 99 while
the instructions live in block 5: evicting 10 unused exercises the
`be_spill_phi` call of `displace` on a Phi of a foreign block. -/
def envC7 : BeladyEnv :=
  { n_regs := 2
    relevant := fun _ => true
    dontSpill := fun _ => false
    nextUse := fun _ _ v _ => v
    isPhi := fun n => n == 10
    blockOf := fun n => if n == 10 then 99 else 5
    phiArg := fun _ _ => 0
    isUnknown := fun _ => false
    isProj := fun _ => false
    modeT := fun _ => false
    ins := fun _ => [] }

/-- A scheduler graph for block 5 whose node 1 is a Phi using node 2 of
the same block (a loop-carried phi argument); node 3 is an external
user keeping both alive. -/
def gC8 : SchedGraph :=
  { blockOf := fun n => if n == 3 then 9 else 5
    ins := fun n => if n == 1 then [2] else []
    users := fun n => if n == 2 then [1] else if n == 1 then [3] else []
    isPhi := fun n => n == 1
    isStart := fun _ => false
    isEnd := fun _ => false
    isKeepLike := fun _ => false
    isBlockNode := fun _ => false
    isAnchor := fun _ => false
    appears := fun _ => true }

/-- C9: `workset_insert` is idempotent and preserves duplicate-freeness:
inserting an already contained value, or a value of another register
class or an ignored value (both reported by `relevant` being false),
leaves the workset unchanged, and inserting the same value twice equals
inserting it once. -/
theorem workset_insert_idempotent (env : BeladyEnv) (ws : List Loc) (v : Nat) :
    (env.relevant v = false → workset_insert env ws v = ws) ∧
    (workset_contains ws v = true → workset_insert env ws v = ws) ∧
    workset_insert env (workset_insert env ws v) v = workset_insert env ws v ∧
    ((wsIrns ws).Nodup → (wsIrns (workset_insert env ws v)).Nodup) := by
  refine ⟨fun h => by simp [workset_insert, h], fun h => by simp [workset_insert, h], ?_, ?_⟩
  · by_cases hr : env.relevant v
    · by_cases hc : workset_contains ws v
      · simp [workset_insert, hr, hc]
      · have hc2 : workset_contains (ws ++ [⟨v, 0⟩]) v = true := by
          simp [workset_contains]
        simp [workset_insert, hr, hc, hc2]
    · simp [workset_insert, hr]
  · intro hnd
    by_cases hr : env.relevant v
    · by_cases hc : workset_contains ws v
      · simpa [workset_insert, hr, hc] using hnd
      · have hv : v ∉ wsIrns ws := by
          intro hmem
          simp only [wsIrns, List.mem_map] at hmem
          obtain ⟨l, hl, he⟩ := hmem
          refine hc ?_
          simp only [workset_contains, List.any_eq_true, beq_iff_eq]
          exact ⟨l, hl, he⟩
        have hws : wsIrns (ws ++ [⟨v, 0⟩]) = wsIrns ws ++ [v] := by simp [wsIrns]
        simp only [workset_insert, hr, hc, Bool.not_true, Bool.false_eq_true,
          if_false, if_neg]
        rw [hws]
        simpa [List.nodup_append] using ⟨hnd, hv⟩
    · simpa [workset_insert, hr] using hnd

/-- Witness for the workset-insert idempotence theorem at concrete
inputs, discharging the relevance, containment and no-dup hypotheses. -/
theorem workset_insert_idempotent_witness :
    workset_insert { envW with relevant := fun n => !(n == 4) } [] 4 = [] ∧
    workset_insert envW [⟨3, 0⟩] 3 = [⟨3, 0⟩] ∧
    workset_insert envW (workset_insert envW [] 3) 3 = workset_insert envW [] 3 ∧
    (wsIrns (workset_insert envW [] 3)).Nodup :=
  ⟨(workset_insert_idempotent { envW with relevant := fun n => !(n == 4) } [] 4).1 (by decide),
   (workset_insert_idempotent envW [⟨3, 0⟩] 3).2.1 (by decide),
   (workset_insert_idempotent envW [] 3).2.2.1,
   (workset_insert_idempotent envW [] 3).2.2.2 (by decide)⟩

/-- C10: displacing a definition whose value is already in the workset
never aborts (the assertion disjunct is the constant true boolean the
string literal decays to) and the value is skipped: it contributes
nothing to the demand and no reload is enqueued (a definition displace
enqueues no reloads at all). -/
theorem displace_def_contained_skipped (env : BeladyEnv) (instr instrNr : Nat)
    (wsStart : List Loc) (used : List Nat) (ws new_vals : List Loc) (v t : Nat)
    (hv : workset_contains ws v = true) :
    displace_def_assert_cond false = true ∧
    v ∉ displace_to_insert ws new_vals ∧
    displace_to_insert ws (new_vals ++ [⟨v, t⟩]) = displace_to_insert ws new_vals ∧
    (displace env instr instrNr false wsStart used ws new_vals).reloads = [] := by
  refine ⟨rfl, ?_, ?_, ?_⟩
  · simp only [displace_to_insert, List.mem_map, List.mem_filter, not_exists]
    rintro l ⟨⟨hl, hcon⟩, he⟩
    rw [he, hv] at hcon
    exact absurd hcon (by simp)
  · simp [displace_to_insert, List.filter_append, hv]
  · unfold displace
    simp only [Bool.false_eq_true, if_false]
    split <;> rfl

/-- Witness: displacing the definition of value 3, already resident,
at a concrete instruction skips it entirely. -/
theorem displace_def_contained_skipped_witness :
    workset_contains [⟨3, 0⟩] 3 = true ∧
    (displace_def_assert_cond false = true ∧
      3 ∉ displace_to_insert [⟨3, 0⟩] [⟨4, 0⟩] ∧
      displace_to_insert [⟨3, 0⟩] ([⟨4, 0⟩] ++ [⟨3, 7⟩]) =
        displace_to_insert [⟨3, 0⟩] [⟨4, 0⟩] ∧
      (displace envW 1 0 false [] [] [⟨3, 0⟩] [⟨4, 0⟩]).reloads = []) :=
  ⟨by decide,
   displace_def_contained_skipped envW 1 0 [] [] [⟨3, 0⟩] [⟨4, 0⟩] 3 7 (by decide)⟩

/-- The modelled `bitset_contains` coincides with pointwise set
inclusion of the bitsets (bits beyond either length are unset). -/
theorem bs_contains_iff (a b : List Bool) :
    bs_contains a b = true ↔ ∀ i, a.getD i false = true → b.getD i false = true := by
  constructor
  · intro h i hi
    by_cases hlt : i < a.length
    · have := (List.all_eq_true.mp h) i (List.mem_range.mpr hlt)
      rcases Bool.or_eq_true_iff.mp this with h1 | h1
      · rw [Bool.not_eq_true'] at h1
        rw [h1] at hi
        exact absurd hi (by simp)
      · exact h1
    · rw [List.getD_eq_default _ _ (Nat.le_of_not_lt hlt)] at hi
      exact absurd hi (by simp)
  · intro h
    refine List.all_eq_true.mpr ?_
    intro i _
    by_cases hb : a.getD i false = true
    · rw [h i hb]
      simp
    · rw [Bool.not_eq_true] at hb
      rw [hb]
      simp

/-- C4: the decisive constraint bitset of an operand is its own `regs`
when it has no partner; with a partner, whichever of the two bitsets is
a subset of the other wins; and with incomparable bitsets no constraint
set is produced, the left node contributes no bipartite edges, and no
matching respecting the edges can assign it a register. -/
theorem decisive_partner_regs_spec (o : BOperand) :
    (o.partner = none → get_decisive_partner_regs o = some o.regs) ∧
    (∀ p, o.partner = some p →
      (∀ i, o.regs.getD i false = true → p.getD i false = true) →
      get_decisive_partner_regs o = some o.regs) ∧
    (∀ p, o.partner = some p →
      (∀ i, p.getD i false = true → o.regs.getD i false = true) →
      ¬(∀ i, o.regs.getD i false = true → p.getD i false = true) →
      get_decisive_partner_regs o = some p) ∧
    (∀ p, o.partner = some p →
      ¬(∀ i, o.regs.getD i false = true → p.getD i false = true) →
      ¬(∀ i, p.getD i false = true → o.regs.getD i false = true) →
      get_decisive_partner_regs o = none ∧ constraint_edges o = [] ∧
      ∀ a : Option Nat, (∀ c, a = some c → c ∈ constraint_edges o) → a = none) := by
  refine ⟨?_, ?_, ?_, ?_⟩
  · intro h
    simp [get_decisive_partner_regs, h]
  · intro p hp hsub
    simp [get_decisive_partner_regs, hp, (bs_contains_iff o.regs p).mpr hsub]
  · intro p hp hsub hnsub
    have h1 : bs_contains o.regs p = false := by
      rw [Bool.eq_false_iff, Ne, bs_contains_iff]
      exact hnsub
    simp [get_decisive_partner_regs, hp, h1, (bs_contains_iff p o.regs).mpr hsub]
  · intro p hp hn1 hn2
    have h1 : bs_contains o.regs p = false := by
      rw [Bool.eq_false_iff, Ne, bs_contains_iff]; exact hn1
    have h2 : bs_contains p o.regs = false := by
      rw [Bool.eq_false_iff, Ne, bs_contains_iff]; exact hn2
    have hd : get_decisive_partner_regs o = none := by
      simp [get_decisive_partner_regs, hp, h1, h2]
    have he : constraint_edges o = [] := by
      simp [constraint_edges, hd]
    refine ⟨hd, he, ?_⟩
    intro a ha
    match a with
    | none => rfl
    | some c => exact absurd (ha c rfl) (by simp [he])

/-- Witness: a concrete over-constrained operand pair (registers {0}
versus {1}) yields no decisive bitset, no edges, and forces any
edge-respecting assignment to be `none`; a concrete subset pair is won
by the subset. -/
theorem decisive_partner_regs_spec_witness :
    (get_decisive_partner_regs ⟨[true, false], some [false, true]⟩ = none ∧
      constraint_edges ⟨[true, false], some [false, true]⟩ = [] ∧
      ∀ a : Option Nat,
        (∀ c, a = some c → c ∈ constraint_edges ⟨[true, false], some [false, true]⟩) →
        a = none) ∧
    get_decisive_partner_regs ⟨[true, false], some [true, true]⟩ = some [true, false] :=
  ⟨(decisive_partner_regs_spec ⟨[true, false], some [false, true]⟩).2.2.2
      [false, true] rfl
      (fun hall => absurd ((bs_contains_iff [true, false] [false, true]).mpr hall) (by decide))
      (fun hall => absurd ((bs_contains_iff [false, true] [true, false]).mpr hall) (by decide)),
   (decisive_partner_regs_spec ⟨[true, false], some [true, true]⟩).2.1
      [true, true] rfl ((bs_contains_iff [true, false] [true, true]).mp (by decide))⟩

/-- The reloads of one edge are exactly the phi-substituted start
workset values that are not Unknown and not in the predecessor end
workset, in order. -/
theorem fix_edge_reloads_eq (env : BeladyEnv) (blk i : Nat) (wsb wsp : List Loc) :
    fix_edge_reloads env blk i wsb wsp =
      (wsb.map (fun l => fix_subst env blk i l.irn)).filter
        (fun x => !env.isUnknown x && !workset_contains wsp x) := by
  have aux : ∀ (l : List Loc) (acc : List Nat),
      l.foldl
        (fun acc l =>
          let irnb := fix_subst env blk i l.irn
          if env.isUnknown irnb then acc
          else if workset_contains wsp irnb then acc
          else acc ++ [irnb]) acc =
      acc ++ (l.map (fun l => fix_subst env blk i l.irn)).filter
        (fun x => !env.isUnknown x && !workset_contains wsp x) := by
    intro l
    induction l with
    | nil => intro acc; simp
    | cons hd tl ih =>
      intro acc
      simp only [List.foldl_cons, List.map_cons, List.filter_cons]
      by_cases h1 : env.isUnknown (fix_subst env blk i hd.irn)
      · rw [ih]
        simp [h1]
      · by_cases h2 : workset_contains wsp (fix_subst env blk i hd.irn)
        · rw [ih]
          simp [h1, h2]
        · rw [ih]
          simp [h1, h2]
  exact aux wsb []

/-- C6: a reload request (i, x) of the edge fixup exists precisely for
a predecessor index i of the block and a value of the start workset
whose phi substitution along edge i yields x, where x is not an
Unknown and is not contained in the end workset of the i-th
predecessor. -/
theorem fix_block_borders_spec (env : BeladyEnv) (blk : Nat) (preds : List Nat)
    (wsb : List Loc) (wsEnd : Nat → List Loc) (i x : Nat) :
    (i, x) ∈ fix_block_borders env blk preds wsb wsEnd ↔
      i < preds.length ∧ ∃ l ∈ wsb, x = fix_subst env blk i l.irn ∧
        env.isUnknown x = false ∧
        workset_contains (wsEnd (preds.getD i 0)) x = false := by
  have aux : ∀ (l : List Nat) (acc : List (Nat × Nat)),
      l.foldl
        (fun acc j =>
          acc ++ (fix_edge_reloads env blk j wsb (wsEnd (preds.getD j 0))).map
            (fun v => (j, v))) acc =
      acc ++ l.flatMap
        (fun j => (fix_edge_reloads env blk j wsb (wsEnd (preds.getD j 0))).map
          (fun v => (j, v))) := by
    intro l
    induction l with
    | nil => intro acc; simp
    | cons hd tl ih =>
      intro acc
      simp only [List.foldl_cons, List.flatMap_cons]
      rw [ih]
      simp
  have hmem : (i, x) ∈ fix_block_borders env blk preds wsb wsEnd ↔
      i < preds.length ∧
      x ∈ fix_edge_reloads env blk i wsb (wsEnd (preds.getD i 0)) := by
    rw [fix_block_borders, aux (List.range preds.length) []]
    simp only [List.nil_append, List.mem_flatMap, List.mem_range, List.mem_map]
    constructor
    · rintro ⟨j, hj, v, hv, he⟩
      obtain ⟨he1, he2⟩ := Prod.mk.injEq .. ▸ he
      exact ⟨he1 ▸ hj, he1 ▸ he2 ▸ hv⟩
    · rintro ⟨hi, hx⟩
      exact ⟨i, hi, x, hx, rfl⟩
  rw [hmem, fix_edge_reloads_eq]
  simp only [List.mem_filter, List.mem_map, Bool.and_eq_true, Bool.not_eq_true']
  constructor
  · rintro ⟨hi, ⟨⟨l, hl, he⟩, hu, hc⟩⟩
    exact ⟨hi, l, hl, he.symm, hu, hc⟩
  · rintro ⟨hi, l, hl, he, hu, hc⟩
    exact ⟨hi, ⟨⟨l, hl, he.symm⟩, hu, hc⟩⟩

/-- C3: at a def event of a value that is not live-in and carries no
pre-assigned register, `assign` picks the lowest-index allocatable
register whose bit is free in the color mask, records it for the value
and occupies it; at a use event it clears the register bit of the
value from the color mask, leaving the assignment map unchanged. -/
theorem assign_border_spec (env : AssignEnv) (st : AState) (b : Border) :
    (b.is_def = true → env.liveIn b.irn = false → regLookup st.regs b.irn = none →
      (List.zipWith (fun c a => !c && a) st.colors env.allocatable).any (fun x => x) = true →
      regLookup (assign_border env st b).regs b.irn =
        some (get_next_free_reg env.allocatable st.colors) ∧
      (assign_border env st b).colors =
        bsSet st.colors (get_next_free_reg env.allocatable st.colors) ∧
      st.colors.getD (get_next_free_reg env.allocatable st.colors) true = false ∧
      env.allocatable.getD (get_next_free_reg env.allocatable st.colors) false = true ∧
      (∀ j < get_next_free_reg env.allocatable st.colors,
        env.allocatable.getD j false = true → st.colors.getD j true = true)) ∧
    (∀ r, b.is_def = false → regLookup st.regs b.irn = some r →
      (assign_border env st b).colors = bsClear st.colors r ∧
      (assign_border env st b).regs = st.regs) := by
  constructor
  · intro hdef hlive hlook hex
    have hred : assign_border env st b =
        ⟨bsSet st.colors (get_next_free_reg env.allocatable st.colors),
         b.irn :: st.live,
         (b.irn, get_next_free_reg env.allocatable st.colors) :: st.regs⟩ := by
      simp [assign_border, hdef, hlive, hlook]
    obtain ⟨x, hx, hpx⟩ := List.any_eq_true.mp hex
    have hlt : get_next_free_reg env.allocatable st.colors <
        (List.zipWith (fun c a => !c && a) st.colors env.allocatable).length :=
      List.findIdx_lt_length_of_exists ⟨x, hx, hpx⟩
    have hzlen : (List.zipWith (fun c a => !c && a) st.colors env.allocatable).length =
        st.colors.length ⊓ env.allocatable.length := List.length_zipWith ..
    have hlt1 : get_next_free_reg env.allocatable st.colors < st.colors.length := by
      rw [hzlen] at hlt
      exact lt_of_lt_of_le hlt (min_le_left _ _)
    have hlt2 : get_next_free_reg env.allocatable st.colors < env.allocatable.length := by
      rw [hzlen] at hlt
      exact lt_of_lt_of_le hlt (min_le_right _ _)
    have hzc : (List.zipWith (fun c a => !c && a) st.colors env.allocatable)[
        get_next_free_reg env.allocatable st.colors] = true := by
      exact @List.findIdx_getElem _ (fun b : Bool => b)
        (List.zipWith (fun c a => !c && a) st.colors env.allocatable) hlt
    rw [List.getElem_zipWith] at hzc
    obtain ⟨hcn, hca⟩ := Bool.and_eq_true_iff.mp hzc
    rw [Bool.not_eq_true'] at hcn
    refine ⟨?_, ?_, ?_, ?_, ?_⟩
    · rw [hred]
      simp [regLookup]
    · rw [hred]
    · rw [List.getD_eq_getElem st.colors true hlt1]
      exact hcn
    · rw [List.getD_eq_getElem env.allocatable false hlt2]
      exact hca
    · intro j hj hja
      have hj1 : j < st.colors.length := lt_trans hj hlt1
      have hj2 : j < env.allocatable.length := lt_trans hj hlt2
      have hjz : j < (List.zipWith (fun c a => !c && a) st.colors env.allocatable).length := by
        rw [hzlen]
        exact lt_min hj1 hj2
      have hfz : (List.zipWith (fun c a => !c && a) st.colors env.allocatable)[j]
          = false := List.not_of_lt_findIdx hj
      rw [List.getElem_zipWith] at hfz
      rw [List.getD_eq_getElem env.allocatable false hj2] at hja
      rw [List.getD_eq_getElem st.colors true hj1]
      rcases Bool.eq_false_or_eq_true st.colors[j] with hc | hc
      · exact hc
      · rw [hc, hja] at hfz
        exact absurd hfz (by simp)

  · intro r huse hlook
    have hred : assign_border env st b =
        ⟨bsClear st.colors r, st.live.erase b.irn, st.regs⟩ := by
      simp [assign_border, huse, hlook]
    rw [hred]
    exact ⟨rfl, rfl⟩

/-- Witness: with allocatable registers {0, 1} and color 0 occupied, a
def event of value 7 receives register 1, the lowest free allocatable
one; a use event of value 7 holding register 0 clears bit 0. -/
theorem assign_border_spec_witness :
    (regLookup (assign_border ⟨[true, true], fun _ => false⟩
        ⟨[true, false], [], []⟩ ⟨true, 7⟩).regs 7 =
      some (get_next_free_reg [true, true] [true, false]) ∧
     (assign_border ⟨[true, true], fun _ => false⟩
        ⟨[true, false], [], []⟩ ⟨true, 7⟩).colors =
      bsSet [true, false] (get_next_free_reg [true, true] [true, false]) ∧
     [true, false].getD (get_next_free_reg [true, true] [true, false]) true = false ∧
     [true, true].getD (get_next_free_reg [true, true] [true, false]) false = true ∧
     (∀ j < get_next_free_reg [true, true] [true, false],
       [true, true].getD j false = true → [true, false].getD j true = true)) ∧
    ((assign_border ⟨[true, true], fun _ => false⟩
        ⟨[true], [7], [(7, 0)]⟩ ⟨false, 7⟩).colors = bsClear [true] 0 ∧
     (assign_border ⟨[true, true], fun _ => false⟩
        ⟨[true], [7], [(7, 0)]⟩ ⟨false, 7⟩).regs = [(7, 0)]) :=
  ⟨(assign_border_spec ⟨[true, true], fun _ => false⟩
      ⟨[true, false], [], []⟩ ⟨true, 7⟩).1 rfl rfl rfl (by decide),
   (assign_border_spec ⟨[true, true], fun _ => false⟩
      ⟨[true], [7], [(7, 0)]⟩ ⟨false, 7⟩).2 0 rfl rfl⟩

/-- The location comparator is transitive. -/
theorem locLe_trans (a b c : Loc) (h1 : locLe a b = true) (h2 : locLe b c = true) :
    locLe a c = true := by
  simp only [locLe, decide_eq_true_eq] at *
  omega

/-- The location comparator is total. -/
theorem locLe_total (a b : Loc) : (locLe a b || locLe b a) = true := by
  simp only [locLe, Bool.or_eq_true, decide_eq_true_eq]
  omega

/-- Sorting a workset permutes it. -/
theorem workset_sort_perm (ws : List Loc) : (workset_sort ws).Perm ws :=
  List.perm_insertionSort _ ws

/-- A sorted workset is pairwise ordered by increasing distance. -/
theorem workset_sort_pairwise (ws : List Loc) :
    (workset_sort ws).Pairwise (fun a b => a.time ≤ b.time) :=
  @List.sorted_insertionSort Loc (fun a b => a.time ≤ b.time) _
    ⟨fun a b => Nat.le_total a.time b.time⟩
    ⟨fun _ _ _ h1 h2 => Nat.le_trans h1 h2⟩ ws

/-- In a list pairwise ordered by distance, every entry of the kept
head is no farther than every entry of the dropped tail. -/
theorem pairwise_take_drop (l : List Loc) (k : Nat)
    (h : l.Pairwise (fun a b => a.time ≤ b.time)) :
    ∀ a ∈ l.take k, ∀ b ∈ l.drop k, a.time ≤ b.time := by
  rw [← List.take_append_drop k l] at h
  exact (List.pairwise_append.mp h).2.2

/-- C5: a block with exactly one predecessor that is not the start
block takes a clone of the predecessor end workset as its start
workset; any other block starts with the `min (count, n_regs)`
starters (its relevant phis and live-ins) of smallest next-use
distance from the first scheduled instruction, sorted ascending. -/
theorem compute_block_start_info_spec (env : BeladyEnv) (blk startBlk nPreds : Nat)
    (predEnd : List Loc) (sched : List Nat) (liveEntries : List (Nat × Bool)) :
    ((nPreds = 1 ∧ blk ≠ startBlk) →
      (compute_block_start_info env blk startBlk nPreds predEnd sched
        liveEntries).wsStart = predEnd) ∧
    (¬(nPreds = 1 ∧ blk ≠ startBlk) →
      ∃ s : List Loc,
        s.Perm (starters env (sched.headD 0) sched liveEntries) ∧
        s.Pairwise (fun a b => a.time ≤ b.time) ∧
        (∀ l ∈ s, l.time = get_distance env (sched.headD 0) 0 l.irn false) ∧
        (compute_block_start_info env blk startBlk nPreds predEnd sched
            liveEntries).wsStart =
          s.take (min (starters env (sched.headD 0) sched liveEntries).length
            env.n_regs) ∧
        (compute_block_start_info env blk startBlk nPreds predEnd sched
            liveEntries).wsStart.length =
          min (starters env (sched.headD 0) sched liveEntries).length env.n_regs ∧
        (∀ a ∈ (compute_block_start_info env blk startBlk nPreds predEnd sched
            liveEntries).wsStart,
          ∀ b ∈ s.drop (min (starters env (sched.headD 0) sched liveEntries).length
            env.n_regs), a.time ≤ b.time)) := by
  constructor
  · rintro ⟨h1, h2⟩
    have hcond : (nPreds == 1 && blk != startBlk) = true := by
      subst h1
      simp [bne_iff_ne, h2]
    simp [compute_block_start_info, hcond]
  · intro hn
    have hcond : (nPreds == 1 && blk != startBlk) = false := by
      rcases Bool.eq_false_or_eq_true (nPreds == 1 && blk != startBlk) with hc | hc
      · obtain ⟨hc1, hc2⟩ := Bool.and_eq_true_iff.mp hc
        exact absurd ⟨beq_iff_eq.mp hc1, bne_iff_ne.mp hc2⟩ hn
      · exact hc
    have hlen : (workset_sort (starters env (sched.headD 0) sched liveEntries)).length =
        (starters env (sched.headD 0) sched liveEntries).length :=
      (workset_sort_perm _).length_eq
    have hout : (compute_block_start_info env blk startBlk nPreds predEnd sched
        liveEntries).wsStart =
        (workset_sort (starters env (sched.headD 0) sched liveEntries)).take
          (min (workset_sort (starters env (sched.headD 0) sched liveEntries)).length
            env.n_regs) := by
      unfold compute_block_start_info
      rw [hcond, if_neg Bool.false_ne_true]
    refine ⟨workset_sort (starters env (sched.headD 0) sched liveEntries), ?_, ?_, ?_, ?_, ?_, ?_⟩
    · exact workset_sort_perm _
    · exact workset_sort_pairwise _
    · intro l hl
      have hl2 := (workset_sort_perm (starters env (sched.headD 0) sched liveEntries)).mem_iff.mp hl
      simp only [starters, List.mem_append, List.mem_map, List.mem_filter] at hl2
      rcases hl2 with ⟨x, _, he⟩ | ⟨x, _, he⟩ <;> rw [← he]
    · rw [hout, hlen]
    · rw [hout, List.length_take, hlen]
      omega
    · intro a ha b hb
      rw [hout, hlen] at ha
      exact pairwise_take_drop _ _ (workset_sort_pairwise _) a ha b hb

/-- Witness: a single-predecessor block inherits the predecessor end
workset; a join block keeps the two closest of its three starters. -/
theorem compute_block_start_info_spec_witness :
    (compute_block_start_info envW 3 9 1 [⟨1, 0⟩] [4] []).wsStart = [⟨1, 0⟩] ∧
    ∃ s : List Loc,
      s.Perm (starters envW ([4].headD 0) [4] [(7, true), (6, true)]) ∧
      s.Pairwise (fun a b => a.time ≤ b.time) ∧
      (∀ l ∈ s, l.time = get_distance envW ([4].headD 0) 0 l.irn false) ∧
      (compute_block_start_info envW 3 9 2 [] [4] [(7, true), (6, true)]).wsStart =
        s.take (min (starters envW ([4].headD 0) [4] [(7, true), (6, true)]).length
          envW.n_regs) ∧
      (compute_block_start_info envW 3 9 2 [] [4] [(7, true), (6, true)]).wsStart.length =
        min (starters envW ([4].headD 0) [4] [(7, true), (6, true)]).length envW.n_regs ∧
      (∀ a ∈ (compute_block_start_info envW 3 9 2 [] [4] [(7, true), (6, true)]).wsStart,
        ∀ b ∈ s.drop (min (starters envW ([4].headD 0) [4]
          [(7, true), (6, true)]).length envW.n_regs), a.time ≤ b.time) :=
  ⟨(compute_block_start_info_spec envW 3 9 1 [⟨1, 0⟩] [4] []).1 ⟨rfl, by decide⟩,
   (compute_block_start_info_spec envW 3 9 2 [] [4] [(7, true), (6, true)]).2
     (fun h => absurd h.1 (by decide))⟩

/-- Inserting into a workset grows it by at most one entry. -/
theorem workset_insert_length_le (env : BeladyEnv) (ws : List Loc) (v : Nat) :
    (workset_insert env ws v).length ≤ ws.length + 1 := by
  unfold workset_insert
  split
  · omega
  · split
    · omega
    · simp

/-- Folding insertions grows a workset by at most the number of
inserted values. -/
theorem foldl_workset_insert_length (env : BeladyEnv) (xs : List Nat) :
    ∀ ws : List Loc, (xs.foldl (workset_insert env) ws).length ≤ ws.length + xs.length := by
  induction xs with
  | nil => intro ws; simp
  | cons x xs ih =>
    intro ws
    calc ((x :: xs).foldl (workset_insert env) ws).length
        = (xs.foldl (workset_insert env) (workset_insert env ws x)).length := by
          simp [List.foldl_cons]
      _ ≤ (workset_insert env ws x).length + xs.length := ih _
      _ ≤ (ws.length + 1) + xs.length := by
          have := workset_insert_length_le env ws x
          omega
      _ = ws.length + (x :: xs).length := by simp; omega

/-- The demand never exceeds the number of requested values. -/
theorem displace_to_insert_length_le (ws new_vals : List Loc) :
    (displace_to_insert ws new_vals).length ≤ new_vals.length := by
  unfold displace_to_insert
  rw [List.length_map]
  exact List.length_filter_le _ _

/-- Reduction of `displace` in the branch that must make room. -/
theorem displace_pos_eq (env : BeladyEnv) (instr instrNr : Nat) (is_usage : Bool)
    (wsStart : List Loc) (used : List Nat) (ws new_vals : List Loc)
    (h : (ws.length : Int) > (env.n_regs : Int) -
      ((displace_to_insert ws new_vals).length : Int)) :
    displace env instr instrNr is_usage wsStart used ws new_vals =
      { ws := (displace_to_insert ws new_vals).foldl (workset_insert env)
          ((workset_sort (retime env instr instrNr is_usage ws)).take
            (((env.n_regs : Int) -
              ((displace_to_insert ws new_vals).length : Int)).toNat))
        used := if is_usage
          then new_vals.foldl (fun u l => pset_insert u l.irn) used else used
        wsStart := (evict_fold env
          (if is_usage then new_vals.foldl (fun u l => pset_insert u l.irn) used else used)
          wsStart
          ((workset_sort (retime env instr instrNr is_usage ws)).drop
            (((env.n_regs : Int) -
              ((displace_to_insert ws new_vals).length : Int)).toNat))).1
        reloads := if is_usage then displace_to_insert ws new_vals else []
        spills := (evict_fold env
          (if is_usage then new_vals.foldl (fun u l => pset_insert u l.irn) used else used)
          wsStart
          ((workset_sort (retime env instr instrNr is_usage ws)).drop
            (((env.n_regs : Int) -
              ((displace_to_insert ws new_vals).length : Int)).toNat))).2 } := by
  unfold displace
  rw [if_pos h]

/-- C2: when the workset holds more than `n_regs - demand` values,
`displace` refreshes every next-use distance, sorts ascending, keeps
exactly the first `n_regs - demand` entries (those of smallest
distance, every kept distance being at most every evicted one) and
after inserting the demanded values the workset holds at most `n_regs`
entries. -/
theorem displace_eviction_spec (env : BeladyEnv) (instr instrNr : Nat) (is_usage : Bool)
    (wsStart : List Loc) (used : List Nat) (ws new_vals : List Loc)
    (hlen : (ws.length : Int) > (env.n_regs : Int) -
      ((displace_to_insert ws new_vals).length : Int))
    (hnv : new_vals.length ≤ env.n_regs) :
    ∃ sorted : List Loc,
      sorted.Perm (retime env instr instrNr is_usage ws) ∧
      sorted.Pairwise (fun a b => a.time ≤ b.time) ∧
      (∀ l ∈ sorted, l.time = get_distance env instr instrNr l.irn (!is_usage)) ∧
      (displace env instr instrNr is_usage wsStart used ws new_vals).ws =
        (displace_to_insert ws new_vals).foldl (workset_insert env)
          (sorted.take (((env.n_regs : Int) -
            ((displace_to_insert ws new_vals).length : Int)).toNat)) ∧
      (∀ a ∈ sorted.take (((env.n_regs : Int) -
          ((displace_to_insert ws new_vals).length : Int)).toNat),
        ∀ b ∈ sorted.drop (((env.n_regs : Int) -
          ((displace_to_insert ws new_vals).length : Int)).toNat), a.time ≤ b.time) ∧
      (displace env instr instrNr is_usage wsStart used ws new_vals).ws.length ≤
        env.n_regs := by
  refine ⟨workset_sort (retime env instr instrNr is_usage ws), ?_, ?_, ?_, ?_, ?_, ?_⟩
  · exact workset_sort_perm _
  · exact workset_sort_pairwise _
  · intro l hl
    have hl2 := (workset_sort_perm (retime env instr instrNr is_usage ws)).mem_iff.mp hl
    simp only [retime, List.mem_map] at hl2
    obtain ⟨x, _, he⟩ := hl2
    rw [← he]
  · rw [displace_pos_eq env instr instrNr is_usage wsStart used ws new_vals hlen]
  · exact pairwise_take_drop _ _ (workset_sort_pairwise _)
  · rw [displace_pos_eq env instr instrNr is_usage wsStart used ws new_vals hlen]
    dsimp only
    have h1 := foldl_workset_insert_length env (displace_to_insert ws new_vals)
      ((workset_sort (retime env instr instrNr is_usage ws)).take
        (((env.n_regs : Int) - ((displace_to_insert ws new_vals).length : Int)).toNat))
    have h2 : ((workset_sort (retime env instr instrNr is_usage ws)).take
        (((env.n_regs : Int) -
          ((displace_to_insert ws new_vals).length : Int)).toNat)).length ≤
        env.n_regs - (displace_to_insert ws new_vals).length := by
      rw [List.length_take]
      have : (((env.n_regs : Int) -
          ((displace_to_insert ws new_vals).length : Int)).toNat) =
          env.n_regs - (displace_to_insert ws new_vals).length := Int.toNat_sub ..
      omega
    have h3 := displace_to_insert_length_le ws new_vals
    omega

/-- Witness: a three-entry workset with two registers and no demand
forces one eviction; the theorem applies at these concrete inputs. -/
theorem displace_eviction_spec_witness :
    ∃ sorted : List Loc,
      sorted.Perm (retime envW 1 0 true [⟨3, 0⟩, ⟨4, 0⟩, ⟨5, 0⟩]) ∧
      sorted.Pairwise (fun a b => a.time ≤ b.time) ∧
      (∀ l ∈ sorted, l.time = get_distance envW 1 0 l.irn (!true)) ∧
      (displace envW 1 0 true [] [] [⟨3, 0⟩, ⟨4, 0⟩, ⟨5, 0⟩] []).ws =
        (displace_to_insert [⟨3, 0⟩, ⟨4, 0⟩, ⟨5, 0⟩] []).foldl (workset_insert envW)
          (sorted.take (((envW.n_regs : Int) -
            ((displace_to_insert [⟨3, 0⟩, ⟨4, 0⟩, ⟨5, 0⟩] []).length : Int)).toNat)) ∧
      (∀ a ∈ sorted.take (((envW.n_regs : Int) -
          ((displace_to_insert [⟨3, 0⟩, ⟨4, 0⟩, ⟨5, 0⟩] []).length : Int)).toNat),
        ∀ b ∈ sorted.drop (((envW.n_regs : Int) -
          ((displace_to_insert [⟨3, 0⟩, ⟨4, 0⟩, ⟨5, 0⟩] []).length : Int)).toNat),
        a.time ≤ b.time) ∧
      (displace envW 1 0 true [] [] [⟨3, 0⟩, ⟨4, 0⟩, ⟨5, 0⟩] []).ws.length ≤
        envW.n_regs :=
  displace_eviction_spec envW 1 0 true [] [] [⟨3, 0⟩, ⟨4, 0⟩, ⟨5, 0⟩] []
    (by decide) (by decide)

/-- Reduction of `displace` in the branch with enough room. -/
theorem displace_neg_eq (env : BeladyEnv) (instr instrNr : Nat) (is_usage : Bool)
    (wsStart : List Loc) (used : List Nat) (ws new_vals : List Loc)
    (h : ¬((ws.length : Int) > (env.n_regs : Int) -
      ((displace_to_insert ws new_vals).length : Int))) :
    displace env instr instrNr is_usage wsStart used ws new_vals =
      { ws := (displace_to_insert ws new_vals).foldl (workset_insert env) ws
        used := if is_usage
          then new_vals.foldl (fun u l => pset_insert u l.irn) used else used
        wsStart := wsStart
        reloads := if is_usage then displace_to_insert ws new_vals else []
        spills := [] } := by
  unfold displace
  rw [if_neg h]

/-- No matter the incoming workset, `displace` leaves at most `n_regs`
values whenever at most `n_regs` values are requested. -/
theorem displace_ws_length (env : BeladyEnv) (instr instrNr : Nat) (is_usage : Bool)
    (wsStart : List Loc) (used : List Nat) (ws new_vals : List Loc)
    (hnv : new_vals.length ≤ env.n_regs) :
    (displace env instr instrNr is_usage wsStart used ws new_vals).ws.length ≤
      env.n_regs := by
  have h3 := displace_to_insert_length_le ws new_vals
  by_cases h : (ws.length : Int) > (env.n_regs : Int) -
      ((displace_to_insert ws new_vals).length : Int)
  · rw [displace_pos_eq env instr instrNr is_usage wsStart used ws new_vals h]
    dsimp only
    have h1 := foldl_workset_insert_length env (displace_to_insert ws new_vals)
      ((workset_sort (retime env instr instrNr is_usage ws)).take
        (((env.n_regs : Int) - ((displace_to_insert ws new_vals).length : Int)).toNat))
    have h2 : ((workset_sort (retime env instr instrNr is_usage ws)).take
        (((env.n_regs : Int) -
          ((displace_to_insert ws new_vals).length : Int)).toNat)).length ≤
        env.n_regs - (displace_to_insert ws new_vals).length := by
      rw [List.length_take]
      have := Int.toNat_sub env.n_regs (displace_to_insert ws new_vals).length
      omega
    omega
  · rw [displace_neg_eq env instr instrNr is_usage wsStart used ws new_vals h]
    dsimp only
    have h1 := foldl_workset_insert_length env (displace_to_insert ws new_vals) ws
    omega

/-- C1: starting from a block start workset of at most `n_regs`
values, the workset observed at the start of processing every
scheduled instruction (and after every use displacement) holds at most
`n_regs` values, provided every instruction requests at most `n_regs`
used and defined values, and `workset_insert` never grows a workset
that is not yet full past `n_regs` entries. -/
theorem belady_workset_bound (env : BeladyEnv) (st0 : BeladyState) (sched : List Nat)
    (h0 : st0.ws.length ≤ env.n_regs)
    (huse : ∀ n, (mk_new_vals env (env.ins n)).length ≤ env.n_regs)
    (hdef : ∀ n rest, (mk_new_vals env (belady_defs env n rest)).length ≤ env.n_regs) :
    (∀ w ∈ belady_states env st0 sched, w.length ≤ env.n_regs) ∧
    (∀ (n : Nat) (st : BeladyState),
      (displace env n st.instrNr true st.wsStart st.used st.ws
        (mk_new_vals env (env.ins n))).ws.length ≤ env.n_regs) ∧
    (∀ (ws : List Loc) (v : Nat), ws.length < env.n_regs →
      (workset_insert env ws v).length ≤ env.n_regs) := by
  have main : ∀ (l : List Nat) (st : BeladyState), st.ws.length ≤ env.n_regs →
      ∀ w ∈ belady_states env st l, w.length ≤ env.n_regs := by
    intro l
    induction l with
    | nil =>
      intro st h w hw
      simp only [belady_states, List.mem_singleton] at hw
      rw [hw]
      exact h
    | cons n rest ih =>
      intro st h w hw
      simp only [belady_states, List.mem_cons] at hw
      rcases hw with hw | hw
      · rw [hw]
        exact h
      · refine ih _ ?_ _ hw
        unfold belady_step
        split
        · exact h
        · dsimp only
          exact displace_ws_length env n _ false _ _ _ _ (hdef n rest)
  refine ⟨main sched st0 h0, ?_, ?_⟩
  · intro n st
    exact displace_ws_length env n _ true _ _ _ _ (huse n)
  · intro ws v hlt
    have := workset_insert_length_le env ws v
    omega

/-- Witness: a one-instruction block over the trivial environment with
two registers; all boundedness hypotheses hold concretely. -/
theorem belady_workset_bound_witness :
    (∀ w ∈ belady_states envW ⟨[], [], [], [], [], 0⟩ [7], w.length ≤ envW.n_regs) ∧
    (∀ (n : Nat) (st : BeladyState),
      (displace envW n st.instrNr true st.wsStart st.used st.ws
        (mk_new_vals envW (envW.ins n))).ws.length ≤ envW.n_regs) ∧
    (∀ (ws : List Loc) (v : Nat), ws.length < envW.n_regs →
      (workset_insert envW ws v).length ≤ envW.n_regs) :=
  belady_workset_bound envW ⟨[], [], [], [], [], 0⟩ [7] (by decide)
    (fun n => by simp [mk_new_vals, envW])
    (fun n rest => by
      simp [belady_defs, mk_new_vals, workset_insert, workset_contains, envW])

/-- `workset_remove` at a found index permutes to erasing that index:
overwriting position i with the last entry and dropping the last entry
keeps exactly the other entries. -/
theorem workset_remove_perm (ws : List Loc) (v : Nat) (i : Nat)
    (h : ws.findIdx? (fun l => l.irn == v) = some i) :
    (workset_remove ws v).Perm (ws.eraseIdx i) := by
  obtain ⟨hi, _⟩ := List.findIdx?_eq_some_iff_findIdx_eq.mp h
  unfold workset_remove
  rw [h]
  show ((ws.set i (ws.getLastD ⟨0, 0⟩)).dropLast).Perm (ws.eraseIdx i)
  rw [List.set_eq_take_append_cons_drop, if_pos hi, List.eraseIdx_eq_take_drop_succ]
  rcases List.eq_nil_or_concat (ws.drop (i + 1)) with hB | ⟨B, lastB, hB⟩
  · rw [hB]
    rw [show ws.take i ++ ws.getLastD ⟨0, 0⟩ :: ([] : List Loc) =
        ws.take i ++ [ws.getLastD ⟨0, 0⟩] from rfl]
    rw [List.dropLast_concat]
    simp
  · rw [List.concat_eq_append] at hB
    have hb : ws.getLastD ⟨0, 0⟩ = lastB := by
      conv_lhs => rw [← List.take_append_drop (i + 1) ws]
      rw [hB, ← List.append_assoc]
      exact List.getLastD_concat ..
    rw [hb, hB]
    rw [show ws.take i ++ lastB :: (B ++ [lastB]) =
        (ws.take i ++ lastB :: B) ++ [lastB] by simp]
    rw [List.dropLast_concat]
    exact List.Perm.append_left _ ((List.perm_append_singleton _ _).symm)

/-- Removal never introduces new nodes. -/
theorem workset_remove_mem_sub (ws : List Loc) (v y : Nat)
    (h : y ∈ wsIrns (workset_remove ws v)) : y ∈ wsIrns ws := by
  cases hfi : ws.findIdx? (fun l => l.irn == v) with
  | none =>
    unfold workset_remove at h
    rw [hfi] at h
    exact h
  | some i =>
    have hp := (workset_remove_perm ws v i hfi).map Loc.irn
    have h2 := hp.mem_iff.mp h
    obtain ⟨l, hl, he⟩ := List.mem_map.mp h2
    exact List.mem_map.mpr ⟨l, List.mem_of_mem_eraseIdx hl, he⟩

/-- On a duplicate-free workset, removal actually removes the node. -/
theorem workset_remove_not_mem (ws : List Loc) (v : Nat)
    (hnd : (wsIrns ws).Nodup) : v ∉ wsIrns (workset_remove ws v) := by
  cases hfi : ws.findIdx? (fun l => l.irn == v) with
  | none =>
    unfold workset_remove
    rw [hfi]
    intro hmem
    obtain ⟨l, hl, he⟩ := List.mem_map.mp hmem
    have := List.findIdx?_eq_none_iff.mp hfi l hl
    rw [he] at this
    simp at this
  | some i =>
    obtain ⟨hi, hfx⟩ := List.findIdx?_eq_some_iff_findIdx_eq.mp hfi
    have hw : List.findIdx (fun l => l.irn == v) ws < ws.length := by
      rw [hfx]
      exact hi
    have hpx := @List.findIdx_getElem _ (fun l => l.irn == v) ws hw
    simp only [hfx] at hpx
    have hx : (ws[i]).irn = v := by simpa using hpx
    intro hmem
    have hp := ((workset_remove_perm ws v i hfi).map Loc.irn).mem_iff.mp hmem
    rw [List.eraseIdx_eq_take_drop_succ, List.map_append] at hp
    have hsplit : wsIrns ws =
        (ws.take i).map Loc.irn ++ v :: (ws.drop (i + 1)).map Loc.irn := by
      conv_lhs => rw [wsIrns, ← List.take_append_drop i ws]
      rw [List.map_append, ← List.getElem_cons_drop ws i hi, List.map_cons, hx]
    rw [hsplit, List.nodup_append] at hnd
    obtain ⟨_, h2, hdisj⟩ := hnd
    rcases List.mem_append.mp hp with hmem1 | hmem1
    · exact hdisj hmem1 (List.mem_cons_self v _)
    · exact (List.nodup_cons.mp h2).1 hmem1

/-- Removal preserves duplicate-freeness of the node list. -/
theorem workset_remove_nodup (ws : List Loc) (v : Nat)
    (hnd : (wsIrns ws).Nodup) : (wsIrns (workset_remove ws v)).Nodup := by
  cases hfi : ws.findIdx? (fun l => l.irn == v) with
  | none =>
    unfold workset_remove
    rw [hfi]
    exact hnd
  | some i =>
    have hp := (workset_remove_perm ws v i hfi).map Loc.irn
    have hsub : ((ws.eraseIdx i).map Loc.irn).Sublist (ws.map Loc.irn) :=
      (List.eraseIdx_sublist ws i).map Loc.irn
    exact hp.nodup_iff.mpr (List.Nodup.sublist hsub hnd)

/-- A node absent from a workset stays absent under repeated removal. -/
theorem foldl_remove_not_mem (v : Nat) :
    ∀ (xs : List Nat) (ws : List Loc),
      v ∉ wsIrns ws → v ∉ wsIrns (xs.foldl workset_remove ws) := by
  intro xs
  induction xs with
  | nil =>
    intro ws h
    simpa using h
  | cons x rest ih =>
    intro ws h
    rw [List.foldl_cons]
    refine ih _ (fun hmem => h ?_)
    exact workset_remove_mem_sub ws x v hmem

/-- Removing a list of nodes containing v from a duplicate-free
workset leaves v out. -/
theorem foldl_remove_removes (v : Nat) :
    ∀ (xs : List Nat) (ws : List Loc),
      (wsIrns ws).Nodup → v ∈ xs → v ∉ wsIrns (xs.foldl workset_remove ws) := by
  intro xs
  induction xs with
  | nil =>
    intro ws _ h
    simp at h
  | cons x rest ih =>
    intro ws hnd hv
    rw [List.foldl_cons]
    rcases List.mem_cons.mp hv with rfl | hv2
    · exact foldl_remove_not_mem v rest _ (workset_remove_not_mem ws v hnd)
    · exact ih _ (workset_remove_nodup ws x hnd) hv2

/-- The eviction fold removes exactly the unused evicted nodes from
the start workset and marks exactly the unused evicted Phis. -/
theorem evict_fold_eq (env : BeladyEnv) (used : List Nat) :
    ∀ (evicted : List Loc) (ws0 : List Loc) (sp0 : List Nat),
      evicted.foldl
        (fun st l =>
          if l.irn ∈ used then st
          else (workset_remove st.1 l.irn,
                if env.isPhi l.irn then st.2 ++ [l.irn] else st.2)) (ws0, sp0) =
      (((evicted.map Loc.irn).filter (fun x => !decide (x ∈ used))).foldl
          workset_remove ws0,
       sp0 ++ (((evicted.map Loc.irn).filter (fun x => !decide (x ∈ used))).filter
          env.isPhi)) := by
  intro evicted
  induction evicted with
  | nil =>
    intro ws0 sp0
    simp
  | cons l rest ih =>
    intro ws0 sp0
    by_cases hu : l.irn ∈ used
    · simp [hu, ih ws0 sp0]
    · by_cases hphi : env.isPhi l.irn
      · simp [hu, hphi, ih]
      · simp [hu, hphi, ih]

/-- Field-wise reading of the eviction fold. -/
theorem evict_fold_spec (env : BeladyEnv) (used : List Nat) (wsStart : List Loc)
    (evicted : List Loc) :
    (evict_fold env used wsStart evicted).1 =
      ((evicted.map Loc.irn).filter (fun x => !decide (x ∈ used))).foldl
        workset_remove wsStart ∧
    (evict_fold env used wsStart evicted).2 =
      (((evicted.map Loc.irn).filter (fun x => !decide (x ∈ used))).filter
        env.isPhi) := by
  have h : evict_fold env used wsStart evicted =
      (((evicted.map Loc.irn).filter (fun x => !decide (x ∈ used))).foldl
          workset_remove wsStart,
       [] ++ (((evicted.map Loc.irn).filter (fun x => !decide (x ∈ used))).filter
          env.isPhi)) :=
    evict_fold_eq env used evicted wsStart []
  rw [h]
  simp

/-- C7 (amended): when `displace` evicts a value that was never used in
the current block so far, the value is removed from the start workset
of the current block, and it is marked for spilling by `be_spill_phi`
exactly when it is a Phi, regardless of which block the Phi belongs
to. -/
theorem displace_evict_unused_spec (env : BeladyEnv) (instr instrNr : Nat)
    (is_usage : Bool) (wsStart : List Loc) (used : List Nat) (ws new_vals : List Loc)
    (v : Nat)
    (hlen : (ws.length : Int) > (env.n_regs : Int) -
      ((displace_to_insert ws new_vals).length : Int))
    (hnd : (wsIrns wsStart).Nodup)
    (hv : v ∈ wsIrns ((workset_sort (retime env instr instrNr is_usage ws)).drop
      (((env.n_regs : Int) - ((displace_to_insert ws new_vals).length : Int)).toNat)))
    (hu : v ∉ (displace env instr instrNr is_usage wsStart used ws new_vals).used) :
    v ∉ wsIrns (displace env instr instrNr is_usage wsStart used ws new_vals).wsStart ∧
    (v ∈ (displace env instr instrNr is_usage wsStart used ws new_vals).spills ↔
      env.isPhi v = true) := by
  rw [displace_pos_eq env instr instrNr is_usage wsStart used ws new_vals hlen] at hu ⊢
  dsimp only at hu ⊢
  obtain ⟨h1, h2⟩ := evict_fold_spec env
    (if is_usage then new_vals.foldl (fun u l => pset_insert u l.irn) used else used)
    wsStart
    ((workset_sort (retime env instr instrNr is_usage ws)).drop
      (((env.n_regs : Int) - ((displace_to_insert ws new_vals).length : Int)).toNat))
  rw [h1, h2]
  have hvf : v ∈ (((workset_sort (retime env instr instrNr is_usage ws)).drop
      (((env.n_regs : Int) -
        ((displace_to_insert ws new_vals).length : Int)).toNat)).map Loc.irn).filter
      (fun x => !decide (x ∈ (if is_usage
        then new_vals.foldl (fun u l => pset_insert u l.irn) used else used))) :=
    List.mem_filter.mpr ⟨hv, by simp [hu]⟩
  refine ⟨foldl_remove_removes v _ wsStart hnd hvf, ?_, ?_⟩
  · intro hsp
    exact (List.mem_filter.mp hsp).2
  · intro hphi
    exact List.mem_filter.mpr ⟨hvf, hphi⟩

/-- Witness: with two registers, a workset holding the foreign-block
Phi 10 and value 4 and a use of value 3, the unused Phi 10 is evicted,
removed from the start workset and marked for spilling. -/
theorem displace_evict_unused_spec_witness :
    10 ∉ wsIrns (displace envC7 1 0 true [⟨10, 0⟩] [] [⟨10, 0⟩, ⟨4, 0⟩]
      (mk_new_vals envC7 [3])).wsStart ∧
    (10 ∈ (displace envC7 1 0 true [⟨10, 0⟩] [] [⟨10, 0⟩, ⟨4, 0⟩]
      (mk_new_vals envC7 [3])).spills ↔ envC7.isPhi 10 = true) :=
  displace_evict_unused_spec envC7 1 0 true [⟨10, 0⟩] [] [⟨10, 0⟩, ⟨4, 0⟩]
    (mk_new_vals envC7 [3]) 10 (by decide) (by decide) (by decide) (by decide)

/-- Counterexample to C7 as stated: `displace` calls `be_spill_phi` on
every evicted unused Phi, with no check that the Phi belongs to the
current block.  Here Phi 10 of block 99 is evicted unused at an
instruction of block 5 and is spilled anyway, so "marked for spilling
exactly when v is a phi of this block" is false. -/
theorem displace_evict_foreign_phi_counterexample :
    10 ∈ (displace envC7 1 0 true [⟨10, 0⟩] [] [⟨10, 0⟩, ⟨4, 0⟩]
      (mk_new_vals envC7 [3])).spills ∧
    10 ∉ (displace envC7 1 0 true [⟨10, 0⟩] [] [⟨10, 0⟩, ⟨4, 0⟩]
      (mk_new_vals envC7 [3])).used ∧
    envC7.isPhi 10 = true ∧
    envC7.blockOf 10 = 99 ∧
    envC7.blockOf 1 = 5 ∧
    ¬(10 ∈ (displace envC7 1 0 true [⟨10, 0⟩] [] [⟨10, 0⟩, ⟨4, 0⟩]
        (mk_new_vals envC7 [3])).spills ↔
      (envC7.isPhi 10 = true ∧ envC7.blockOf 10 = envC7.blockOf 1)) := by
  decide

/-- `ops_ok` is monotone in the seen set. -/
theorem ops_ok_mono (g : SchedGraph) (blk : Nat) {s1 s2 : List Nat}
    (h : ∀ x ∈ s1, x ∈ s2) (irn : Nat) (ho : ops_ok g blk s1 irn) :
    ops_ok g blk s2 irn :=
  fun u hu h1 h2 => h u (ho u hu h1 h2)

/-- A node passing the readiness guard has all in-block inputs already
scheduled. -/
theorem ready_ok_ops (g : SchedGraph) (blk : Nat) (st : SState) (irn : Nat)
    (h : ready_ok g blk st irn = true) : ops_ok g blk st.already irn := by
  unfold ready_ok at h
  simp only [Bool.and_eq_true] at h
  obtain ⟨_, hall⟩ := h
  intro u hu hb hblk
  have h2 := List.all_eq_true.mp hall u hu
  rw [hb, hblk] at h2
  simpa using h2

/-- Preservation of the scheduler invariant by `make_ready`,
`add_to_sched` (for a node that is a Phi or has all in-block inputs
already scheduled) and `make_users_ready`, for every fuel value. -/
theorem sched_funcs_inv (g : SchedGraph) (blk : Nat) :
    ∀ fuel : Nat,
      (∀ st irn, sched_inv g blk st →
        sched_inv g blk (make_ready g blk fuel st irn)) ∧
      (∀ st irn, sched_inv g blk st →
        (g.isPhi irn = true ∨ ops_ok g blk st.already irn) →
        sched_inv g blk (add_to_sched g blk fuel st irn)) ∧
      (∀ st irn, sched_inv g blk st →
        sched_inv g blk (make_users_ready g blk fuel st irn)) := by
  intro fuel
  induction fuel with
  | zero => exact ⟨fun st irn h => h, fun st irn h _ => h, fun st irn h => h⟩
  | succ fuel ih =>
    obtain ⟨ihmr, ihadd, ihmur⟩ := ih
    refine ⟨?_, ?_, ?_⟩
    · intro st irn h
      rw [make_ready]
      by_cases hr : ready_ok g blk st irn
      · rw [if_pos hr]
        by_cases ha : g.appears irn
        · simp only [ha, Bool.not_true, Bool.false_eq_true, if_false]
          obtain ⟨h1, h2, h3⟩ := h
          refine ⟨h1, ?_, h3⟩
          intro c hc
          by_cases hmem : irn ∈ st.cands
          · rw [if_pos hmem] at hc
            exact h2 c hc
          · rw [if_neg hmem] at hc
            rcases List.mem_append.mp hc with hc2 | hc2
            · exact h2 c hc2
            · rw [List.mem_singleton] at hc2
              subst hc2
              exact ready_ok_ops g blk st c hr
        · simp only [ha, Bool.not_false, if_true]
          exact ihadd st irn h (Or.inr (ready_ok_ops g blk st irn hr))
      · rw [if_neg hr]
        exact h
    · intro st irn h hpre
      rw [add_to_sched]
      refine ihmur _ irn ?_
      obtain ⟨h1, h2, h3⟩ := h
      by_cases ha : g.appears irn
      · simp only [ha, if_true]
        refine ⟨?_, ?_, ?_⟩
        · intro x hx hax
          rcases List.mem_cons.mp hx with hx2 | hx2
          · subst hx2
            exact List.mem_append.mpr (Or.inr (List.mem_singleton.mpr rfl))
          · exact List.mem_append.mpr (Or.inl (h1 x hx2 hax))
        · intro c hc
          exact ops_ok_mono g blk (fun x hx => List.mem_cons.mpr (Or.inr hx)) c
            (h2 c (List.mem_of_mem_erase hc))
        · intro j hj hphi
          have hj2 : j < st.sched.length + 1 := by
            simpa using hj
          by_cases hjl : j < st.sched.length
          · have hget : (st.sched ++ [irn]).get ⟨j, hj⟩ = st.sched.get ⟨j, hjl⟩ := by
              simp only [List.get_eq_getElem]
              exact List.getElem_append_left hjl
            have htake : (st.sched ++ [irn]).take j = st.sched.take j := by
              rw [List.take_append_eq_append_take]
              have : j - st.sched.length = 0 := by omega
              rw [this]
              simp
            rw [hget] at hphi ⊢
            rw [htake]
            exact h3 j hjl hphi
          · have hje : j = st.sched.length := by omega
            have hget : (st.sched ++ [irn]).get ⟨j, hj⟩ = irn := by
              simp only [List.get_eq_getElem]
              exact List.getElem_concat_length st.sched irn j hje hj
            have htake : (st.sched ++ [irn]).take j = st.sched := by
              rw [List.take_append_eq_append_take]
              have h0 : j - st.sched.length = 0 := by omega
              rw [h0, hje]
              simp
            rw [hget] at hphi ⊢
            rw [htake]
            rcases hpre with hphi2 | hops
            · rw [hphi2] at hphi
              exact absurd hphi (by simp)
            · intro u hu hb hblk hap
              exact h1 u (hops u hu hb hblk) hap
      · simp only [ha, Bool.false_eq_true, if_false]
        refine ⟨?_, ?_, h3⟩
        · intro x hx hax
          rcases List.mem_cons.mp hx with hx2 | hx2
          · subst hx2
            exact absurd hax ha
          · exact h1 x hx2 hax
        · intro c hc
          exact ops_ok_mono g blk (fun x hx => List.mem_cons.mpr (Or.inr hx)) c (h2 c hc)
    · intro st irn h
      rw [make_users_ready]
      have haux : ∀ (l : List Nat) (s : SState), sched_inv g blk s →
          sched_inv g blk (l.foldl
            (fun s u => if g.isPhi u then s else make_ready g blk fuel s u) s) := by
        intro l
        induction l with
        | nil => intro s hs; exact hs
        | cons u rest ihl =>
          intro s hs
          rw [List.foldl_cons]
          refine ihl _ ?_
          by_cases hp : g.isPhi u
          · rw [if_pos hp]
            exact hs
          · rw [if_neg hp]
            exact ihmr s u hs
      exact haux _ st h

/-- Seeding one block member preserves the scheduler invariant (the
backend Start pseudo-node has no inputs). -/
theorem seed_node_inv (g : SchedGraph) (blk fuel : Nat)
    (hstart : ∀ n, g.isStart n = true → g.ins n = [])
    (st : SState) (irn : Nat) (h : sched_inv g blk st) :
    sched_inv g blk (seed_node g blk fuel st irn) := by
  unfold seed_node
  by_cases h1 : g.isEnd irn
  · rw [if_pos h1]; exact h
  rw [if_neg h1]
  by_cases h2 : (g.users irn).isEmpty
  · rw [if_pos h2]; exact h
  rw [if_neg h2]
  by_cases h3 : (g.users irn).length == 1 && g.isAnchor ((g.users irn).headD 0)
  · rw [if_pos h3]; exact h
  rw [if_neg h3]
  by_cases h4 : g.isPhi irn
  · rw [if_pos h4]
    exact (sched_funcs_inv g blk fuel).2.1 st irn h (Or.inl h4)
  rw [if_neg h4]
  by_cases h5 : g.isStart irn
  · rw [if_pos h5]
    refine (sched_funcs_inv g blk fuel).2.1 st irn h (Or.inr ?_)
    intro u hu
    rw [hstart irn h5] at hu
    exact absurd hu (List.not_mem_nil u)
  rw [if_neg h5]
  by_cases h6 : (g.ins irn).all (fun op => !(g.blockOf op == blk))
  · rw [if_pos h6]
    exact (sched_funcs_inv g blk fuel).1 st irn h
  · rw [if_neg h6]
    exact h

/-- The selection loop preserves the scheduler invariant whenever the
selector returns a member of the candidate set. -/
theorem sched_loop_inv (g : SchedGraph) (blk : Nat) (sel : List Nat → Nat)
    (hsel : ∀ l : List Nat, l ≠ [] → sel l ∈ l) :
    ∀ (fuel : Nat) (st : SState), sched_inv g blk st →
      sched_inv g blk (sched_loop g blk sel fuel st) := by
  intro fuel
  induction fuel with
  | zero => intro st h; exact h
  | succ fuel ih =>
    intro st h
    rw [sched_loop]
    by_cases hc : st.cands.isEmpty
    · rw [if_pos hc]
      exact h
    · rw [if_neg hc]
      have hne : st.cands ≠ [] := by
        intro he
        rw [he] at hc
        exact hc rfl
      cases hf : st.cands.find? g.isKeepLike with
      | some k =>
        dsimp only
        have hmem : k ∈ st.cands := List.mem_of_find?_eq_some hf
        have h2 := (sched_funcs_inv g blk fuel).2.1 st k h (Or.inr (h.2.1 k hmem))
        refine ih _ ⟨h2.1, ?_, h2.2.2⟩
        intro c hc2
        exact h2.2.1 c (List.mem_of_mem_erase hc2)
      | none =>
        dsimp only
        have hmem : sel st.cands ∈ st.cands := hsel st.cands hne
        have h2 := (sched_funcs_inv g blk fuel).2.1 st (sel st.cands) h
          (Or.inr (h.2.1 (sel st.cands) hmem))
        refine ih _ ⟨h2.1, ?_, h2.2.2⟩
        intro c hc2
        exact h2.2.1 c (List.mem_of_mem_erase hc2)

/-- C8 (amended): after `list_sched_block`, every candidate entered
the ready set only with all of its in-block inputs already scheduled,
and in the produced schedule every appearing same-block input of a
non-Phi instruction occurs strictly earlier. -/
theorem list_sched_respects_dag (g : SchedGraph) (blk : Nat) (blockNodes : List Nat)
    (sel : List Nat → Nat) (fuel : Nat)
    (hsel : ∀ l : List Nat, l ≠ [] → sel l ∈ l)
    (hstart : ∀ n, g.isStart n = true → g.ins n = []) :
    (∀ c ∈ (list_sched_block g blk blockNodes sel fuel).cands,
      ops_ok g blk (list_sched_block g blk blockNodes sel fuel).already c) ∧
    (∀ j, ∀ hj : j < (list_sched_block g blk blockNodes sel fuel).sched.length,
      g.isPhi ((list_sched_block g blk blockNodes sel fuel).sched.get ⟨j, hj⟩) = false →
      ops_in g blk ((list_sched_block g blk blockNodes sel fuel).sched.take j)
        ((list_sched_block g blk blockNodes sel fuel).sched.get ⟨j, hj⟩)) := by
  have hseed : ∀ (l : List Nat) (st : SState), sched_inv g blk st →
      sched_inv g blk (l.foldl (seed_node g blk fuel) st) := by
    intro l
    induction l with
    | nil => intro st h; exact h
    | cons n rest ihl =>
      intro st h
      rw [List.foldl_cons]
      exact ihl _ (seed_node_inv g blk fuel hstart st n h)
  have hinit : sched_inv g blk ⟨[], [], []⟩ := by
    refine ⟨?_, ?_, ?_⟩
    · intro x hx
      exact absurd hx (List.not_mem_nil x)
    · intro c hc
      exact absurd hc (List.not_mem_nil c)
    · intro j hj
      exact absurd hj (by simp)
  have hinv : sched_inv g blk (list_sched_block g blk blockNodes sel fuel) := by
    unfold list_sched_block
    exact sched_loop_inv g blk sel hsel fuel _ (hseed blockNodes _ hinit)
  exact ⟨hinv.2.1, hinv.2.2⟩

/-- Witness: scheduling two independent appearing nodes of block 5
with a head selector; the invariant holds of the result. -/
theorem list_sched_respects_dag_witness :
    (∀ c ∈ (list_sched_block gC8 9 [3] (fun l => l.headD 0) 20).cands,
      ops_ok gC8 9 (list_sched_block gC8 9 [3] (fun l => l.headD 0) 20).already c) ∧
    (∀ j, ∀ hj : j < (list_sched_block gC8 9 [3] (fun l => l.headD 0) 20).sched.length,
      gC8.isPhi ((list_sched_block gC8 9 [3]
        (fun l => l.headD 0) 20).sched.get ⟨j, hj⟩) = false →
      ops_in gC8 9 ((list_sched_block gC8 9 [3] (fun l => l.headD 0) 20).sched.take j)
        ((list_sched_block gC8 9 [3] (fun l => l.headD 0) 20).sched.get ⟨j, hj⟩)) :=
  list_sched_respects_dag gC8 9 [3] (fun l => l.headD 0) 20
    (fun l hl => by
      cases l with
      | nil => exact absurd rfl hl
      | cons a l2 => exact List.mem_cons.mpr (Or.inl rfl))
    (fun n hn => absurd hn (by simp [gC8]))

/-- Counterexample to C8 as stated: the Phi node 1 of block 5 uses
node 2 of the same block (a loop-carried argument), yet phis are
scheduled first, so the produced schedule [1, 2] places the operand
after its user and the unrestricted DAG property fails. -/
theorem list_sched_phi_counterexample :
    (list_sched_block gC8 5 [1, 2] (fun l => l.headD 0) 20).sched = [1, 2] ∧
    gC8.isPhi 1 = true ∧
    2 ∈ gC8.ins 1 ∧
    gC8.blockOf 2 = 5 ∧
    gC8.appears 2 = true ∧
    gC8.isBlockNode 2 = false ∧
    ¬ sched_respects_dag gC8 5 (list_sched_block gC8 5 [1, 2]
        (fun l => l.headD 0) 20).sched := by
  refine ⟨by decide, by decide, by decide, by decide, by decide, by decide, ?_⟩
  intro hdag
  have hs : (list_sched_block gC8 5 [1, 2] (fun l => l.headD 0) 20).sched = [1, 2] := by
    decide
  rw [hs] at hdag
  have h0 : (0 : Nat) < ([1, 2] : List Nat).length := by decide
  have hmem : (2 : Nat) ∈ gC8.ins (([1, 2] : List Nat).get ⟨0, h0⟩) := by
    have hg : ([1, 2] : List Nat).get ⟨0, h0⟩ = 1 := rfl
    rw [hg]
    decide
  have hcontra := hdag 0 h0 2 hmem (by decide) (by decide) (by decide)
  simp at hcontra
